import Mathlib

/-!
# A model of the `queue` package (request queue over pluggable storage)

This file embeds the Go package `queue` (file `queue.go`) in Lean:

* `InMemoryQueueStorage` — the default storage backend: a singly linked
  list of byte payloads with head (`first`) and tail (`last`) pointers and
  a size counter, bounded by `MaxSize`.  Pointers are modelled by an
  explicit heap: `heap` is the list of all nodes ever allocated and a
  pointer is an index into it (Go's garbage collection needs no model;
  dead nodes simply stay in `heap`).  The `sync.RWMutex` is not modelled:
  every operation of the Go code runs entirely inside the lock, so each
  operation is one atomic state transformation here.
* `StorageOps`/`QueueS` — the `Storage` interface and the `Queue` type,
  generic over a storage state type, together with `New`, `Size`,
  `IsEmpty` and `AddURL`.  URL parsing (`net/url`) and request
  serialization (`colly.Request.Marshal`) live outside this repository;
  they are passed as function parameters, exactly the collaborator
  contracts the queue code consumes.
* `RunState`/`RunStep` — a small-step transition system for `Queue.Run`
  with one worker goroutine and the dispatcher goroutine, used to study
  termination of `Run`.

Go's `error` results are modelled as `Option Err` (`none` = `nil`), byte
slices as `List Nat`, and Go `int` as `Int`.
-/

/-- A byte slice (`[]byte`); the byte values themselves are opaque data. -/
abbrev Bytes := List Nat

/-- A Go `error` value (`nil` is `Option.none`); distinct errors are
distinct codes. -/
abbrev Err := Nat

/-- One linked-list node (`inMemoryQueueItem`): a payload and the `Next`
pointer (an index into the heap, or `none` for `nil`). -/
structure inMemoryQueueItem where
  Request : Bytes
  Next : Option Nat
deriving DecidableEq, Repr

/-- The state of an `InMemoryQueueStorage` value.  `first`/`last` are the
head and tail pointers of the linked list, `heap` the allocation store the
pointers index into. -/
structure InMemoryQueueStorage where
  MaxSize : Int
  size : Int
  first : Option Nat
  last : Option Nat
  heap : List inMemoryQueueItem
deriving DecidableEq, Repr

namespace InMemoryQueueStorage

/-- Go `&InMemoryQueueStorage{MaxSize: maxSize}`: a fresh storage value with
Go zero values for every other field. -/
def mk0 (maxSize : Int) : InMemoryQueueStorage :=
  { MaxSize := maxSize, size := 0, first := none, last := none, heap := [] }

/-- Storage `Init` allocates the `sync.RWMutex` and returns `nil`; the lock is not
modelled, so the state is unchanged. -/
def Init (q : InMemoryQueueStorage) : InMemoryQueueStorage × Option Err :=
  (q, none)

/-- The assignment `q.last.Next = i`: rewrite the `Next` field of the node at heap index
`l` to point at heap index `a`. -/
def setNext (h : List inMemoryQueueItem) (l a : Nat) : List inMemoryQueueItem :=
  match h[l]? with
  | some n => h.set l { Request := n.Request, Next := some a }
  | none => h

/-- Method `AddRequest`: discards the payload when `MaxSize > 0 && size >= MaxSize`
(returning `nil`), otherwise allocates a node, links it behind `last`
(or installs it as `first` when the list is empty), moves `last` to it and
increments `size`.  Always returns `nil`.  The `first ≠ nil, last = nil`
branch is a nil-pointer dereference in Go; it is unreachable from `mk0`
(see the well-formedness lemmas) and modelled as leaving the state alone. -/
def AddRequest (q : InMemoryQueueStorage) (r : Bytes) :
    InMemoryQueueStorage × Option Err :=
  if q.MaxSize > 0 ∧ q.size ≥ q.MaxSize then (q, none)
  else
    let a := q.heap.length
    match q.first with
    | none =>
        ({ q with first := some a
                  last := some a
                  size := q.size + 1
                  heap := q.heap ++ [{ Request := r, Next := none }] }, none)
    | some _ =>
        match q.last with
        | some l =>
            ({ q with last := some a
                      size := q.size + 1
                      heap := setNext q.heap l a ++ [{ Request := r, Next := none }] }, none)
        | none => (q, none)

/-- Method `GetRequest`: on `size == 0` returns `(nil, nil)`; otherwise reads the
head node's payload, advances `first` to its `Next` and decrements `size`.
The branches with `size ≠ 0` but a missing head node are nil/invalid
dereferences in Go, unreachable from `mk0`, and modelled as leaving the
state alone. -/
def GetRequest (q : InMemoryQueueStorage) :
    (Option Bytes × Option Err) × InMemoryQueueStorage :=
  if q.size = 0 then ((none, none), q)
  else
    match q.first with
    | some f =>
        match q.heap[f]? with
        | some node =>
            ((some node.Request, none),
             { q with first := node.Next
                      size := q.size - 1 })
        | none => ((none, none), q)
    | none => ((none, none), q)

/-- Method `QueueSize`: returns the size counter and `nil`. -/
def QueueSize (q : InMemoryQueueStorage) : Int × Option Err :=
  (q.size, none)

end InMemoryQueueStorage

/-! ## Well-formedness of the linked list

`HeapChain h p as` says: starting at pointer `p` and repeatedly following
`Next` through the heap `h` visits exactly the nodes at the indices `as`
and ends at a `nil` pointer. -/

inductive HeapChain (h : List inMemoryQueueItem) : Option Nat → List Nat → Prop
  | nil : HeapChain h none []
  | cons {a : Nat} {node : inMemoryQueueItem} {rest : List Nat} :
      h[a]? = some node → HeapChain h node.Next rest →
      HeapChain h (some a) (a :: rest)

/-- A storage state is well formed with node-index list `as`: `first`
chains through exactly `as`, `size` counts `as`, `last` points at the
final node whenever the list is non-empty (after a full drain Go leaves
`last` dangling, so nothing is said when `as = []`), and the indices are
strictly increasing (each node is allocated after every node already in
the list). -/
structure WF (q : InMemoryQueueStorage) (as : List Nat) : Prop where
  chain : HeapChain q.heap q.first as
  size_eq : q.size = (as.length : Int)
  last_eq : as ≠ [] → q.last = as.getLast?
  mono : as.Pairwise (· < ·)

/-- The payloads stored at the node indices `as` of heap `h`. -/
def payloads (h : List inMemoryQueueItem) (as : List Nat) : List Bytes :=
  as.map fun a => ((h[a]?.getD { Request := [], Next := none }).Request)

/-- State `q` represents the abstract FIFO backlog `l` (front of `l` = head of
the queue). -/
def ReprQ (q : InMemoryQueueStorage) (l : List Bytes) : Prop :=
  ∃ as, WF q as ∧ payloads q.heap as = l

theorem hc_lt {h : List inMemoryQueueItem} {f : Option Nat} {as : List Nat}
    (hc : HeapChain h f as) : ∀ a ∈ as, a < h.length := by
  induction hc with
  | nil => intro a ha; cases ha
  | cons hget _ ih =>
      intro b hb
      rcases List.mem_cons.mp hb with rfl | hb
      · exact (List.getElem?_eq_some.mp hget).1
      · exact ih b hb

theorem hc_none {h : List inMemoryQueueItem} {as : List Nat}
    (hc : HeapChain h none as) : as = [] := by
  cases hc; rfl

theorem wf_mk0 (m : Int) : WF (InMemoryQueueStorage.mk0 m) [] :=
  { chain := HeapChain.nil
    size_eq := rfl
    last_eq := fun hne => absurd rfl hne
    mono := List.Pairwise.nil }

theorem ReprQ_mk0 (m : Int) : ReprQ (InMemoryQueueStorage.mk0 m) [] :=
  ⟨[], wf_mk0 m, rfl⟩

theorem hc_nil_first {h : List inMemoryQueueItem} {f : Option Nat}
    (hc : HeapChain h f []) : f = none := by
  cases hc; rfl

theorem wf_size_zero_iff {q : InMemoryQueueStorage} {as : List Nat}
    (w : WF q as) : q.size = 0 ↔ q.first = none := by
  constructor
  · intro h0
    have has : as = [] := by
      have := w.size_eq
      rw [h0] at this
      cases as with
      | nil => rfl
      | cons a as' => exfalso; simp at this; omega
    exact hc_nil_first (has ▸ w.chain)
  · intro hf
    have : as = [] := hc_none (hf ▸ w.chain)
    rw [w.size_eq, this]
    rfl

theorem ReprQ_size {q : InMemoryQueueStorage} {l : List Bytes}
    (h : ReprQ q l) : q.size = (l.length : Int) := by
  rcases h with ⟨as, w, hp⟩
  rw [w.size_eq, ← hp]
  simp [payloads]

/-- The payload at heap index `b` (Go would dereference; `b` is in range
whenever it comes from a chain). -/
def payloadAt (h : List inMemoryQueueItem) (b : Nat) : Bytes :=
  (h[b]?.getD { Request := [], Next := none }).Request

theorem payloads_eq_map (h : List inMemoryQueueItem) (as : List Nat) :
    payloads h as = as.map (payloadAt h) := rfl

theorem mem_of_getLast?_eq {l : List Nat} {x : Nat} (h : l.getLast? = some x) :
    x ∈ l := by
  rcases List.mem_getLast?_eq_getLast (Option.mem_def.mpr h) with ⟨hne, rfl⟩
  exact List.getLast_mem hne

theorem setNext_length (h : List inMemoryQueueItem) (l a : Nat) :
    (InMemoryQueueStorage.setNext h l a).length = h.length := by
  unfold InMemoryQueueStorage.setNext
  split <;> simp

theorem setNext_getElem_ne (h : List inMemoryQueueItem) {l b : Nat} (a : Nat)
    (hne : l ≠ b) : (InMemoryQueueStorage.setNext h l a)[b]? = h[b]? := by
  unfold InMemoryQueueStorage.setNext
  split
  · exact List.getElem?_set_ne hne
  · rfl

/-- Appending a node and redirecting `last.Next` never changes a stored
payload. -/
theorem payloadAt_snoc_heap {h : List inMemoryQueueItem} {b : Nat}
    (hb : b < h.length) (l a : Nat) (i : inMemoryQueueItem) :
    payloadAt (InMemoryQueueStorage.setNext h l a ++ [i]) b = payloadAt h b := by
  unfold payloadAt
  rw [List.getElem?_append_left (by rw [setNext_length]; exact hb)]
  by_cases hlb : l = b
  · subst hlb
    have hl : h[l]? = some h[l] := List.getElem?_eq_getElem hb
    have hs : InMemoryQueueStorage.setNext h l a =
        h.set l { Request := h[l].Request, Next := some a } := by
      unfold InMemoryQueueStorage.setNext
      rw [hl]
    rw [hs, List.getElem?_set_eq_of_lt _ hb, hl]
    rfl
  · rw [setNext_getElem_ne h a hlb]

/-- Inversion for a non-empty chain. -/
theorem hc_cons_inv {h : List inMemoryQueueItem} {f : Option Nat} {a : Nat}
    {as : List Nat} (hc : HeapChain h f (a :: as)) :
    f = some a ∧ ∃ node, h[a]? = some node ∧ HeapChain h node.Next as := by
  cases hc with
  | cons hget hrest => exact ⟨rfl, _, hget, hrest⟩

/-- Extending the list by a fresh node at `h.length`, with the old tail
node `l` redirected to it, extends the chain by that node. -/
theorem hc_snoc {h : List inMemoryQueueItem} {f : Option Nat} {as : List Nat}
    {l : Nat} (hc : HeapChain h f as) (hl : as.getLast? = some l)
    (hmono : as.Pairwise (· < ·)) (r : Bytes) :
    HeapChain (InMemoryQueueStorage.setNext h l h.length ++ [{ Request := r, Next := none }])
      f (as ++ [h.length]) := by
  induction hc with
  | nil => simp at hl
  | @cons a node rest hget hrest ih =>
      cases rest with
      | nil =>
          have ha : a = l := by simpa using hl
          subst ha
          have halt : a < h.length := (List.getElem?_eq_some.mp hget).1
          refine @HeapChain.cons _ _ { Request := node.Request, Next := some h.length } _ ?_ ?_
          · rw [List.getElem?_append_left (by rw [setNext_length]; exact halt)]
            unfold InMemoryQueueStorage.setNext
            rw [hget]
            exact List.getElem?_set_eq_of_lt _ halt
          · refine @HeapChain.cons _ _ { Request := r, Next := none } _ ?_ HeapChain.nil
            have hcl := List.getElem?_concat_length
              (InMemoryQueueStorage.setNext h a h.length) { Request := r, Next := none }
            rw [setNext_length] at hcl
            exact hcl
      | cons b rest' =>
          have hl' : (b :: rest').getLast? = some l := by
            simpa using hl
          have hmem : l ∈ b :: rest' := mem_of_getLast?_eq hl'
          have hal : a < l := List.rel_of_pairwise_cons hmono hmem
          have halt : a < h.length := (List.getElem?_eq_some.mp hget).1
          refine HeapChain.cons ?_ (ih hl' hmono.of_cons)
          rw [List.getElem?_append_left (by rw [setNext_length]; exact halt)]
          rw [setNext_getElem_ne h h.length (Ne.symm (Nat.ne_of_lt hal))]
          exact hget

/-! ## Behaviour of the storage operations on well-formed states -/

theorem AddRequest_snd (q : InMemoryQueueStorage) (r : Bytes) :
    (q.AddRequest r).2 = none := by
  unfold InMemoryQueueStorage.AddRequest
  split
  · rfl
  · split
    · rfl
    · split <;> rfl

theorem AddRequest_MaxSize (q : InMemoryQueueStorage) (r : Bytes) :
    (q.AddRequest r).1.MaxSize = q.MaxSize := by
  unfold InMemoryQueueStorage.AddRequest
  split
  · rfl
  · split
    · rfl
    · split <;> rfl

/-- The capacity check: on a full bounded queue `AddRequest` is a no-op
that still reports success. -/
theorem AddRequest_reject {q : InMemoryQueueStorage} (r : Bytes)
    (h1 : q.MaxSize > 0) (h2 : q.size ≥ q.MaxSize) :
    q.AddRequest r = (q, none) := by
  unfold InMemoryQueueStorage.AddRequest
  rw [if_pos ⟨h1, h2⟩]

/-- Evaluation of `AddRequest` when the list is empty and the item is
within capacity: the new node becomes both head and tail. -/
theorem AddRequest_eq_empty {q : InMemoryQueueStorage} (r : Bytes)
    (hacc : ¬(q.MaxSize > 0 ∧ q.size ≥ q.MaxSize)) (hf : q.first = none) :
    q.AddRequest r =
      ({ q with first := some q.heap.length
                last := some q.heap.length
                size := q.size + 1
                heap := q.heap ++ [{ Request := r, Next := none }] }, none) := by
  unfold InMemoryQueueStorage.AddRequest
  rw [if_neg hacc, hf]

/-- Evaluation of `AddRequest` when the list is non-empty and the item is
within capacity: the tail node's `Next` is redirected to the new node. -/
theorem AddRequest_eq_link {q : InMemoryQueueStorage} {a0 l : Nat} (r : Bytes)
    (hacc : ¬(q.MaxSize > 0 ∧ q.size ≥ q.MaxSize)) (hf : q.first = some a0)
    (hl : q.last = some l) :
    q.AddRequest r =
      ({ q with last := some q.heap.length
                size := q.size + 1
                heap := InMemoryQueueStorage.setNext q.heap l q.heap.length ++
                  [{ Request := r, Next := none }] }, none) := by
  unfold InMemoryQueueStorage.AddRequest
  rw [if_neg hacc, hf, hl]

/-- An accepted `AddRequest` keeps the state well formed, appending the
fresh node's index, and appends the payload to the abstract backlog. -/
theorem AddRequest_wf {q : InMemoryQueueStorage} {as : List Nat}
    (w : WF q as) (r : Bytes)
    (hacc : ¬(q.MaxSize > 0 ∧ q.size ≥ q.MaxSize)) :
    WF (q.AddRequest r).1 (as ++ [q.heap.length]) ∧
    payloads (q.AddRequest r).1.heap (as ++ [q.heap.length]) =
      payloads q.heap as ++ [r] := by
  rcases hf : q.first with _ | a0
  · -- empty list: first == nil, so the new node becomes both head and tail
    have has : as = [] := hc_none (hf ▸ w.chain)
    subst has
    have hsize : q.size = 0 := w.size_eq
    rw [AddRequest_eq_empty r hacc hf]
    constructor
    · constructor
      · exact HeapChain.cons (List.getElem?_concat_length _ _) HeapChain.nil
      · simp [hsize]
      · intro _; rfl
      · simp
    · simp [payloads, payloadAt, List.getElem?_concat_length]
  · -- non-empty list: link behind the tail node
    have hne : as ≠ [] := by
      intro h
      rw [h] at w
      rw [hc_nil_first w.chain] at hf
      cases hf
    have hlast : q.last = as.getLast? := w.last_eq hne
    rcases hl : as.getLast? with _ | l
    · rw [hl] at hlast
      exact absurd hl (by simp [List.getLast?_eq_none_iff, hne])
    · rw [hl] at hlast
      have hllt : l < q.heap.length := hc_lt w.chain l (mem_of_getLast?_eq hl)
      rw [AddRequest_eq_link r hacc hf hlast]
      constructor
      · constructor
        · exact hc_snoc w.chain hl w.mono r
        · have := w.size_eq
          simp only [List.length_append, List.length_cons, List.length_nil]
          push_cast
          omega
        · intro _
          simp
        · rw [List.pairwise_append]
          refine ⟨w.mono, List.pairwise_singleton _ _, ?_⟩
          intro x hx b hb
          rw [List.mem_singleton] at hb
          subst hb
          exact hc_lt w.chain x hx
      · rw [payloads_eq_map, payloads_eq_map, List.map_append]
        congr 1
        · exact List.map_congr_left fun b hb =>
            payloadAt_snoc_heap (hc_lt w.chain b hb) l q.heap.length _
        · have hcl := List.getElem?_concat_length
            (InMemoryQueueStorage.setNext q.heap l q.heap.length)
            { Request := r, Next := none }
          rw [setNext_length] at hcl
          simp [payloadAt, hcl]

theorem GetRequest_empty {q : InMemoryQueueStorage} (h : q.size = 0) :
    q.GetRequest = ((none, none), q) := by
  unfold InMemoryQueueStorage.GetRequest
  rw [if_pos h]

/-- Evaluation of `GetRequest` on a non-empty well-formed state. -/
theorem GetRequest_eq {q : InMemoryQueueStorage} {f : Nat}
    {node : inMemoryQueueItem} (hs : ¬q.size = 0) (hf : q.first = some f)
    (hget : q.heap[f]? = some node) :
    q.GetRequest = ((some node.Request, none),
      { q with first := node.Next
               size := q.size - 1 }) := by
  unfold InMemoryQueueStorage.GetRequest
  rw [if_neg hs, hf]
  simp [hget]

/-- Calling `GetRequest` on a well-formed non-empty state pops the head payload
and keeps the state well formed over the remaining indices; the heap,
capacity and tail pointer are untouched. -/
theorem GetRequest_wf {q : InMemoryQueueStorage} {a : Nat} {as : List Nat}
    (w : WF q (a :: as)) :
    (q.GetRequest).1 = (some (payloadAt q.heap a), none) ∧
    WF (q.GetRequest).2 as ∧
    (q.GetRequest).2.heap = q.heap ∧
    (q.GetRequest).2.MaxSize = q.MaxSize := by
  obtain ⟨hf, node, hget, hrest⟩ := hc_cons_inv w.chain
  have hs : ¬q.size = 0 := by
    rw [w.size_eq]
    simp only [List.length_cons]
    push_cast
    omega
  rw [GetRequest_eq hs hf hget]
  refine ⟨?_, ?_, rfl, rfl⟩
  · simp [payloadAt, hget]
  · constructor
    · exact hrest
    · have := w.size_eq
      simp only [List.length_cons] at this
      rw [this]
      push_cast
      omega
    · intro hne
      rcases as with _ | ⟨b, as'⟩
      · exact absurd rfl hne
      · rw [w.last_eq (by simp)]
        rfl
    · exact w.mono.of_cons

/-! ## The abstract FIFO view -/

theorem ReprQ_add {q : InMemoryQueueStorage} {l : List Bytes} (r : Bytes)
    (h : ReprQ q l) (hacc : ¬(q.MaxSize > 0 ∧ q.size ≥ q.MaxSize)) :
    ReprQ (q.AddRequest r).1 (l ++ [r]) := by
  rcases h with ⟨as, w, hp⟩
  rcases AddRequest_wf w r hacc with ⟨w', hp'⟩
  exact ⟨as ++ [q.heap.length], w', by rw [hp', hp]⟩

theorem ReprQ_get_cons {q : InMemoryQueueStorage} {x : Bytes} {l : List Bytes}
    (h : ReprQ q (x :: l)) :
    (q.GetRequest).1 = (some x, none) ∧ ReprQ (q.GetRequest).2 l := by
  rcases h with ⟨as, w, hp⟩
  rcases as with _ | ⟨a, as'⟩
  · exact absurd hp (by simp [payloads])
  · rw [payloads_eq_map, List.map_cons] at hp
    obtain ⟨hx, hl⟩ : payloadAt q.heap a = x ∧ (as').map (payloadAt q.heap) = l := by
      exact ⟨(List.cons.injEq _ _ _ _ ▸ hp).1, (List.cons.injEq _ _ _ _ ▸ hp).2⟩
    rcases GetRequest_wf w with ⟨h1, h2, h3, _⟩
    refine ⟨by rw [h1, hx], ⟨as', h2, ?_⟩⟩
    rw [payloads_eq_map, h3, hl]

theorem ReprQ_get_nil {q : InMemoryQueueStorage} (h : ReprQ q []) :
    q.GetRequest = ((none, none), q) := by
  have := ReprQ_size h
  exact GetRequest_empty (by simpa using this)

/-! ## Sequences of storage operations -/

/-- Perform the `AddRequest` calls for `rs` in order, left to right. -/
def addAll (q : InMemoryQueueStorage) (rs : List Bytes) : InMemoryQueueStorage :=
  rs.foldl (fun q r => (q.AddRequest r).1) q

/-- The error results of the `AddRequest` calls for `rs`, in order. -/
def addAllErrs (q : InMemoryQueueStorage) : List Bytes → List (Option Err)
  | [] => []
  | r :: rest => (q.AddRequest r).2 :: addAllErrs (q.AddRequest r).1 rest

/-- Perform `n` `GetRequest` calls, collecting the (optional) payloads in
order together with the final state. -/
def getAll : InMemoryQueueStorage → Nat → List (Option Bytes) × InMemoryQueueStorage
  | q, 0 => ([], q)
  | q, n + 1 =>
      let g := q.GetRequest
      let rest := getAll g.2 n
      (g.1.1 :: rest.1, rest.2)

theorem addAll_cons (q : InMemoryQueueStorage) (r : Bytes) (rs : List Bytes) :
    addAll q (r :: rs) = addAll (q.AddRequest r).1 rs := rfl

theorem addAll_append (q : InMemoryQueueStorage) (xs ys : List Bytes) :
    addAll q (xs ++ ys) = addAll (addAll q xs) ys :=
  List.foldl_append _ _ _ _

theorem addAllErrs_none (rs : List Bytes) :
    ∀ q : InMemoryQueueStorage, addAllErrs q rs = List.replicate rs.length none := by
  induction rs with
  | nil => intro q; rfl
  | cons r rest ih =>
      intro q
      simp only [addAllErrs, AddRequest_snd, List.length_cons, List.replicate_succ]
      rw [ih]

/-- Running `rs` through `AddRequest` from a state representing `l`
appends `rs` to the backlog, provided everything stays within capacity. -/
theorem addAll_ReprQ {rs : List Bytes} {q : InMemoryQueueStorage} {l : List Bytes}
    (h : ReprQ q l)
    (hcap : q.MaxSize > 0 → (l.length : Int) + rs.length ≤ q.MaxSize) :
    ReprQ (addAll q rs) (l ++ rs) := by
  induction rs generalizing q l with
  | nil => simpa using h
  | cons r rest ih =>
      rw [addAll_cons]
      have hacc : ¬(q.MaxSize > 0 ∧ q.size ≥ q.MaxSize) := by
        rintro ⟨h1, h2⟩
        have := hcap h1
        have hsz := ReprQ_size h
        simp only [List.length_cons] at this
        push_cast at this
        omega
      have h' := ReprQ_add r h hacc
      have hms := AddRequest_MaxSize q r
      have := ih h' (by
        rw [hms]
        intro h1
        have hc2 := hcap h1
        simp only [List.length_cons] at hc2
        push_cast at hc2
        simp only [List.length_append, List.length_cons, List.length_nil]
        push_cast
        omega)
      simpa using this

/-- Draining a state representing `l` with `l.length` `GetRequest` calls
returns exactly the payloads of `l`, in order. -/
theorem getAll_ReprQ {l : List Bytes} {q : InMemoryQueueStorage}
    (h : ReprQ q l) : (getAll q l.length).1 = l.map some := by
  induction l generalizing q with
  | nil => rfl
  | cons x rest ih =>
      rcases ReprQ_get_cons h with ⟨h1, h2⟩
      simp only [List.length_cons, getAll, List.map_cons]
      rw [h1, ih h2]

/-- On a full bounded queue every further `AddRequest` leaves the state
completely unchanged. -/
theorem addAll_full {q : InMemoryQueueStorage} (rs : List Bytes)
    (h1 : q.MaxSize > 0) (h2 : q.size ≥ q.MaxSize) : addAll q rs = q := by
  induction rs with
  | nil => rfl
  | cons r rest ih =>
      rw [addAll_cons, AddRequest_reject r h1 h2]
      exact ih

theorem addAll_MaxSize (rs : List Bytes) :
    ∀ q : InMemoryQueueStorage, (addAll q rs).MaxSize = q.MaxSize := by
  induction rs with
  | nil => intro q; rfl
  | cons r rest ih =>
      intro q
      rw [addAll_cons, ih, AddRequest_MaxSize]

/-! ## The claims -/

/-- C1: for the in-memory storage, any sequence of `N` `AddRequest` calls
that are all within capacity, followed by `N` `GetRequest` calls with no
interleaving, returns exactly the `N` added payloads in order — no
reordering, duplication or loss. -/
theorem c1_fifo_order (m : Int) (rs : List Bytes)
    (hcap : 0 < m → (rs.length : Int) ≤ m) :
    (getAll (addAll (InMemoryQueueStorage.mk0 m) rs) rs.length).1 = rs.map some := by
  have h1 := addAll_ReprQ (ReprQ_mk0 m) (by
    intro h
    simpa using hcap h)
  exact getAll_ReprQ (by simpa using h1)

/-- C1 witness: three payloads through a queue of capacity 3. -/
theorem c1_fifo_order_witness :
    (getAll (addAll (InMemoryQueueStorage.mk0 3) [[1], [2], [3]])
      [[1], [2], [3]].length).1 = [[1], [2], [3]].map some :=
  c1_fifo_order 3 [[1], [2], [3]] (by decide)

/-- C2: with `MaxSize = k > 0`, enqueuing `k + 5` payloads succeeds on
every call (error `nil` each time), leaves `QueueSize` at `k`, and retains
exactly the first `k` payloads, in order (drop-newest-on-full). -/
theorem c2_capacity_drop_newest (k : Nat) (rs : List Bytes) (hk : 0 < k)
    (hlen : rs.length = k + 5) :
    addAllErrs (InMemoryQueueStorage.mk0 k) rs = List.replicate rs.length none ∧
    (addAll (InMemoryQueueStorage.mk0 k) rs).QueueSize = ((k : Int), none) ∧
    (getAll (addAll (InMemoryQueueStorage.mk0 k) rs) k).1 = (rs.take k).map some := by
  have htk : (rs.take k).length = k := by
    rw [List.length_take]
    omega
  have h1 : ReprQ (addAll (InMemoryQueueStorage.mk0 k) (rs.take k)) (rs.take k) := by
    have h2 : ReprQ (addAll (InMemoryQueueStorage.mk0 k) (rs.take k)) ([] ++ rs.take k) :=
      addAll_ReprQ (ReprQ_mk0 k) (by
        intro h
        simp [InMemoryQueueStorage.mk0, htk])
    simpa using h2
  have hms : (addAll (InMemoryQueueStorage.mk0 k) (rs.take k)).MaxSize = k :=
    addAll_MaxSize _ _
  have hsz : (addAll (InMemoryQueueStorage.mk0 k) (rs.take k)).size = (k : Int) := by
    rw [ReprQ_size h1, htk]
  have hqq : addAll (InMemoryQueueStorage.mk0 k) rs =
      addAll (InMemoryQueueStorage.mk0 k) (rs.take k) := by
    conv_lhs => rw [← List.take_append_drop k rs]
    rw [addAll_append]
    exact addAll_full _ (by rw [hms]; exact_mod_cast hk) (by rw [hms, hsz])
  refine ⟨addAllErrs_none rs _, ?_, ?_⟩
  · rw [hqq]
    show (_, (none : Option Err)) = _
    rw [hsz]
  · rw [hqq]
    have hg := getAll_ReprQ h1
    rw [htk] at hg
    exact hg

/-- C2 witness: capacity 2, seven payloads. -/
theorem c2_capacity_drop_newest_witness :
    addAllErrs (InMemoryQueueStorage.mk0 2) [[0], [1], [2], [3], [4], [5], [6]] =
      List.replicate [[0], [1], [2], [3], [4], [5], [6]].length none ∧
    (addAll (InMemoryQueueStorage.mk0 2) [[0], [1], [2], [3], [4], [5], [6]]).QueueSize =
      (((2 : Nat) : Int), none) ∧
    (getAll (addAll (InMemoryQueueStorage.mk0 2) [[0], [1], [2], [3], [4], [5], [6]]) 2).1 =
      ([[0], [1], [2], [3], [4], [5], [6]].take 2).map some :=
  c2_capacity_drop_newest 2 [[0], [1], [2], [3], [4], [5], [6]] (by decide) (by decide)

/-- C5: `GetRequest` on an empty backlog returns no item and a `nil`
error, and leaves the storage state unchanged. -/
theorem c5_empty_get (q : InMemoryQueueStorage) (h : q.size = 0) :
    q.GetRequest = ((none, none), q) :=
  GetRequest_empty h

/-- C5 witness: a fresh storage of capacity 5. -/
theorem c5_empty_get_witness :
    (InMemoryQueueStorage.mk0 5).GetRequest = ((none, none), InMemoryQueueStorage.mk0 5) :=
  c5_empty_get _ rfl

/-- The storage state is reachable-well-formed: it represents some
abstract backlog. -/
def InvQ (q : InMemoryQueueStorage) : Prop := ∃ l, ReprQ q l

theorem InvQ_mk0 (m : Int) : InvQ (InMemoryQueueStorage.mk0 m) :=
  ⟨[], ReprQ_mk0 m⟩

/-- C6: on well-formed states `size == 0` holds exactly when the head
pointer is `nil`, and both `AddRequest` (which on an empty list installs
the new node as head and tail, so later appends link correctly) and
`GetRequest` preserve well-formedness. -/
theorem c6_head_invariant (q : InMemoryQueueStorage) (r : Bytes) (h : InvQ q) :
    (q.size = 0 ↔ q.first = none) ∧
    InvQ (q.AddRequest r).1 ∧
    InvQ (q.GetRequest).2 := by
  obtain ⟨l, as, w, hp⟩ := h
  refine ⟨wf_size_zero_iff w, ?_, ?_⟩
  · by_cases hfull : q.MaxSize > 0 ∧ q.size ≥ q.MaxSize
    · rw [AddRequest_reject r hfull.1 hfull.2]
      exact ⟨l, as, w, hp⟩
    · exact ⟨l ++ [r], ReprQ_add r ⟨as, w, hp⟩ hfull⟩
  · rcases l with _ | ⟨x, l'⟩
    · rw [ReprQ_get_nil ⟨as, w, hp⟩]
      exact ⟨[], as, w, hp⟩
    · exact ⟨l', (ReprQ_get_cons ⟨as, w, hp⟩).2⟩

/-- C6 witness: the invariant and both preservations at a fresh storage. -/
theorem c6_head_invariant_witness :
    ((InMemoryQueueStorage.mk0 5).size = 0 ↔ (InMemoryQueueStorage.mk0 5).first = none) ∧
    InvQ ((InMemoryQueueStorage.mk0 5).AddRequest [7]).1 ∧
    InvQ ((InMemoryQueueStorage.mk0 5).GetRequest).2 :=
  c6_head_invariant (InMemoryQueueStorage.mk0 5) [7] (InvQ_mk0 5)

/-- C10: with `MaxSize ≤ 0` the capacity check never fires: every
`AddRequest` appends its payload (the backlog grows by exactly that item
and `size` by one) and returns `nil`. -/
theorem c10_nonpositive_max_unbounded (q : InMemoryQueueStorage)
    (l : List Bytes) (r : Bytes) (hm : q.MaxSize ≤ 0) (h : ReprQ q l) :
    ReprQ (q.AddRequest r).1 (l ++ [r]) ∧
    (q.AddRequest r).1.size = q.size + 1 ∧
    (q.AddRequest r).2 = none := by
  have hacc : ¬(q.MaxSize > 0 ∧ q.size ≥ q.MaxSize) := by
    rintro ⟨h1, _⟩
    omega
  have h' := ReprQ_add r h hacc
  refine ⟨h', ?_, AddRequest_snd q r⟩
  rw [ReprQ_size h', ReprQ_size h]
  simp only [List.length_append, List.length_cons, List.length_nil]
  push_cast
  ring

/-- C10 witness: `MaxSize = 0` accepts an item into the empty storage. -/
theorem c10_nonpositive_max_unbounded_witness :
    ReprQ ((InMemoryQueueStorage.mk0 0).AddRequest [9]).1 ([] ++ [[9]]) ∧
    ((InMemoryQueueStorage.mk0 0).AddRequest [9]).1.size =
      (InMemoryQueueStorage.mk0 0).size + 1 ∧
    ((InMemoryQueueStorage.mk0 0).AddRequest [9]).2 = none :=
  c10_nonpositive_max_unbounded (InMemoryQueueStorage.mk0 0) [] [9]
    (by decide) (ReprQ_mk0 0)

/-! ## Arbitrary interleavings of AddRequest and GetRequest (for the size
invariant) -/

/-- One storage operation: an `AddRequest` with a payload, or a
`GetRequest`. -/
inductive QOp where
  | add (r : Bytes)
  | get
deriving DecidableEq, Repr

/-- Run a sequence of operations, tallying how many `AddRequest` calls
appended (i.e. were not capacity-rejected) and how many `GetRequest`
calls returned an item.  Returns (final state, appended, dequeued). -/
def runTally : InMemoryQueueStorage → List QOp → InMemoryQueueStorage × Int × Int
  | q, [] => (q, 0, 0)
  | q, QOp.add r :: ops =>
      let acc : Int := if q.MaxSize > 0 ∧ q.size ≥ q.MaxSize then 0 else 1
      let t := runTally (q.AddRequest r).1 ops
      (t.1, t.2.1 + acc, t.2.2)
  | q, QOp.get :: ops =>
      let g := q.GetRequest
      let t := runTally g.2 ops
      (t.1, t.2.1, t.2.2 + (if g.1.1.isSome then 1 else 0))

/-- Along any operation sequence from a well-formed state the final state
is well formed and its size counter moved by (appended − dequeued). -/
theorem runTally_size (ops : List QOp) :
    ∀ (q : InMemoryQueueStorage) (l : List Bytes), ReprQ q l →
      (∃ lf, ReprQ (runTally q ops).1 lf) ∧
      (runTally q ops).1.size = q.size + (runTally q ops).2.1 - (runTally q ops).2.2 := by
  induction ops with
  | nil =>
      intro q l h
      exact ⟨⟨l, h⟩, by simp [runTally]⟩
  | cons op ops ih =>
      intro q l h
      cases op with
      | add r =>
          by_cases hfull : q.MaxSize > 0 ∧ q.size ≥ q.MaxSize
          · have hrej : (q.AddRequest r).1 = q := by
              rw [AddRequest_reject r hfull.1 hfull.2]
            obtain ⟨hex, hsz⟩ := ih q l h
            constructor
            · simpa [runTally, hrej] using hex
            · simp only [runTally, hrej, if_pos hfull]
              omega
          · have h' := ReprQ_add r h hfull
            obtain ⟨hex, hsz⟩ := ih (q.AddRequest r).1 (l ++ [r]) h'
            have hstep : (q.AddRequest r).1.size = q.size + 1 := by
              rw [ReprQ_size h', ReprQ_size h]
              simp only [List.length_append, List.length_cons, List.length_nil]
              push_cast
              ring
            refine ⟨hex, ?_⟩
            simp only [runTally, if_neg hfull]
            omega
      | get =>
          rcases l with _ | ⟨x, l'⟩
          · have hg : q.GetRequest = ((none, none), q) := ReprQ_get_nil h
            obtain ⟨hex, hsz⟩ := ih q [] h
            refine ⟨by simpa [runTally, hg] using hex, ?_⟩
            simp only [runTally, hg]
            simpa using hsz
          · obtain ⟨hg1, hg2⟩ := ReprQ_get_cons h
            obtain ⟨hex, hsz⟩ := ih (q.GetRequest).2 l' hg2
            have hstep : (q.GetRequest).2.size = q.size - 1 := by
              rw [ReprQ_size hg2, ReprQ_size h]
              simp only [List.length_cons]
              push_cast
              ring
            refine ⟨hex, ?_⟩
            simp only [runTally, hg1]
            simp only [Option.isSome_some, if_pos]
            omega

/-- C4: after any interleaving of `AddRequest`/`GetRequest` operations on
a fresh in-memory storage, `QueueSize` reports exactly (appends accepted)
− (gets that returned an item), and that value is never negative. -/
theorem c4_size_counts (m : Int) (ops : List QOp) :
    ((runTally (InMemoryQueueStorage.mk0 m) ops).1.QueueSize).1 =
      (runTally (InMemoryQueueStorage.mk0 m) ops).2.1 -
        (runTally (InMemoryQueueStorage.mk0 m) ops).2.2 ∧
    0 ≤ ((runTally (InMemoryQueueStorage.mk0 m) ops).1.QueueSize).1 := by
  obtain ⟨⟨lf, hrep⟩, hsz⟩ := runTally_size ops (InMemoryQueueStorage.mk0 m) [] (ReprQ_mk0 m)
  have h0 : (InMemoryQueueStorage.mk0 m).size = 0 := rfl
  constructor
  · show (runTally (InMemoryQueueStorage.mk0 m) ops).1.size = _
    rw [hsz, h0]
    ring
  · show 0 ≤ (runTally (InMemoryQueueStorage.mk0 m) ops).1.size
    rw [ReprQ_size hrep]
    positivity

/-! ## The Queue type over the pluggable Storage interface

Go's `Storage` is an interface; a backend is a state type `σ` together
with the four operations.  `Queue` methods are generic in the backend. -/

/-- The `Storage` interface: `Init`, `AddRequest`, `GetRequest`,
`QueueSize` over backend state `σ`. -/
structure StorageOps (σ : Type) where
  Init : σ → σ × Option Err
  AddRequest : σ → Bytes → σ × Option Err
  GetRequest : σ → (Option Bytes × Option Err) × σ
  QueueSize : σ → Int × Option Err

/-- The in-memory backend as a `Storage` instance. -/
def inMemoryOps : StorageOps InMemoryQueueStorage :=
  { Init := InMemoryQueueStorage.Init
    AddRequest := InMemoryQueueStorage.AddRequest
    GetRequest := InMemoryQueueStorage.GetRequest
    QueueSize := InMemoryQueueStorage.QueueSize }

/-- The `Queue` struct: consumer-thread count, the storage state, the
`activeThreadCount` counter, and whether the `requestsOut` hand-off
channel has been allocated (`make(chan *colly.Request)`). -/
structure QueueS (σ : Type) where
  Threads : Int
  storage : σ
  activeThreadCount : Int
  requestsOutAllocated : Bool
deriving DecidableEq, Repr

/-- Constructor `New(threads, s)` for a non-nil `s`: calls `s.Init()`, propagates its
error (returning no queue), and otherwise returns the queue with the
hand-off channel allocated and the zero-valued active-thread counter. -/
def New {σ : Type} (ops : StorageOps σ) (threads : Int) (s : σ) :
    Option (QueueS σ) × Option Err :=
  match ops.Init s with
  | (s', none) =>
      (some { Threads := threads
              storage := s'
              activeThreadCount := 0
              requestsOutAllocated := true }, none)
  | (_, some e) => (none, some e)

/-- Constructor `New(threads, nil)`: the nil storage argument is replaced by
`&InMemoryQueueStorage{MaxSize: 100000}`. -/
def NewNilStorage (threads : Int) :
    Option (QueueS InMemoryQueueStorage) × Option Err :=
  New inMemoryOps threads (InMemoryQueueStorage.mk0 100000)

/-- Method `Queue.Size`: delegates to `storage.QueueSize()`. -/
def QueueS.Size {σ : Type} (ops : StorageOps σ) (q : QueueS σ) :
    Int × Option Err :=
  ops.QueueSize q.storage

/-- Method `Queue.IsEmpty`: `s, _ := q.Size(); return s == 0` — the count is
compared with zero and the error discarded. -/
def QueueS.IsEmpty {σ : Type} (ops : StorageOps σ) (q : QueueS σ) : Bool :=
  (QueueS.Size ops q).1 == 0

/-- A `colly.Request` as far as this package builds one: a parsed URL
value and a method string. -/
structure collyRequest (U : Type) where
  URL : U
  Method : String
deriving DecidableEq, Repr

/-- Method `Queue.AddURL`: parse the URL (`url.Parse`, an external collaborator,
passed as `parse`), on failure return the parse error; build a GET
request for the parsed URL; serialize it (`colly.Request.Marshal`, the
external `marshal`), on failure return that error; otherwise hand the
bytes to `storage.AddRequest` and return its error. -/
def QueueS.AddURL {σ U : Type} (ops : StorageOps σ)
    (parse : String → Except Err U)
    (marshal : collyRequest U → Except Err Bytes)
    (q : QueueS σ) (url : String) : QueueS σ × Option Err :=
  match parse url with
  | Except.error e => (q, some e)
  | Except.ok u =>
      match marshal { URL := u, Method := "GET" } with
      | Except.error e => (q, some e)
      | Except.ok d =>
          let res := ops.AddRequest q.storage d
          ({ q with storage := res.1 }, res.2)

/-- A backend whose `QueueSize` reports count 3 together with an error:
legal under the Go `Storage` interface, and the instance separating "the
count is zero" from "an error occurred". -/
def errSizeOps : StorageOps Unit :=
  { Init := fun s => (s, none)
    AddRequest := fun s _ => (s, none)
    GetRequest := fun s => ((none, none), s)
    QueueSize := fun _ => (3, some 7) }

/-- A backend whose `Init` fails with error 5. -/
def failInitOps : StorageOps Unit :=
  { Init := fun s => (s, some 5)
    AddRequest := fun s _ => (s, none)
    GetRequest := fun s => ((none, none), s)
    QueueSize := fun _ => (0, none) }

/-- A queue over the trivial backend state. -/
def unitQueue : QueueS Unit :=
  { Threads := 1, storage := (), activeThreadCount := 0, requestsOutAllocated := true }

/-- C7 counterexample: with a storage whose `QueueSize` returns count 3
and an error, `Size()` reports the error yet `IsEmpty()` returns `false`
— the claim "whenever `Size()` returns an error, `IsEmpty()` returns
true regardless of the count" is false: the code ignores the error and
looks only at the count. -/
theorem c7_error_swallow_cex :
    (QueueS.Size errSizeOps unitQueue).2 = some 7 ∧
    QueueS.IsEmpty errSizeOps unitQueue = false := by
  exact ⟨rfl, rfl⟩

/-- C7 (amended): `IsEmpty()` returns true exactly when the count
component returned by `Size()` is zero; the error component is discarded
(`s, _ := q.Size()`) and has no influence on the result. -/
theorem c7_isEmpty_iff_count_zero {σ : Type} (ops : StorageOps σ) (q : QueueS σ) :
    QueueS.IsEmpty ops q = true ↔ (QueueS.Size ops q).1 = 0 := by
  unfold QueueS.IsEmpty
  exact beq_iff_eq

/-- C8: `New` with nil storage defaults to the in-memory backend with
capacity exactly 100000; for any backend it calls `Init`, hands back an
`Init` failure with no queue, and on success returns the queue with the
hand-off channel allocated and `activeThreadCount = 0`. -/
theorem c8_new_spec :
    (∀ threads : Int, NewNilStorage threads =
      (some { Threads := threads
              storage := InMemoryQueueStorage.mk0 100000
              activeThreadCount := 0
              requestsOutAllocated := true }, none)) ∧
    (∀ (σ : Type) (ops : StorageOps σ) (threads : Int) (s s' : σ) (e : Err),
      ops.Init s = (s', some e) → New ops threads s = (none, some e)) ∧
    (∀ (σ : Type) (ops : StorageOps σ) (threads : Int) (s s' : σ),
      ops.Init s = (s', none) →
      New ops threads s = (some { Threads := threads
                                  storage := s'
                                  activeThreadCount := 0
                                  requestsOutAllocated := true }, none)) := by
  refine ⟨fun threads => rfl, ?_, ?_⟩
  · intro σ ops threads s s' e h
    unfold New
    rw [h]
  · intro σ ops threads s s' h
    unfold New
    rw [h]

/-- C9: `AddURL` fails with the parse error and leaves the queue (and its
storage) unchanged when the URL does not parse; otherwise it builds a GET
request for the parsed URL, serializes it, fails with the serialization
error if that fails, and otherwise forwards the bytes to
`storage.AddRequest`, returning exactly its error. -/
theorem c9_addURL_spec :
    (∀ (σ U : Type) (ops : StorageOps σ) (parse : String → Except Err U)
        (marshal : collyRequest U → Except Err Bytes) (q : QueueS σ)
        (url : String) (e : Err), parse url = Except.error e →
        QueueS.AddURL ops parse marshal q url = (q, some e)) ∧
    (∀ (σ U : Type) (ops : StorageOps σ) (parse : String → Except Err U)
        (marshal : collyRequest U → Except Err Bytes) (q : QueueS σ)
        (url : String) (u : U) (e : Err), parse url = Except.ok u →
        marshal { URL := u, Method := "GET" } = Except.error e →
        QueueS.AddURL ops parse marshal q url = (q, some e)) ∧
    (∀ (σ U : Type) (ops : StorageOps σ) (parse : String → Except Err U)
        (marshal : collyRequest U → Except Err Bytes) (q : QueueS σ)
        (url : String) (u : U) (d : Bytes), parse url = Except.ok u →
        marshal { URL := u, Method := "GET" } = Except.ok d →
        QueueS.AddURL ops parse marshal q url =
          ({ q with storage := (ops.AddRequest q.storage d).1 },
           (ops.AddRequest q.storage d).2)) := by
  refine ⟨?_, ?_, ?_⟩
  · intro σ U ops parse marshal q url e h
    unfold QueueS.AddURL
    rw [h]
  · intro σ U ops parse marshal q url u e h1 h2
    unfold QueueS.AddURL
    rw [h1]
    simp [h2]
  · intro σ U ops parse marshal q url u d h1 h2
    unfold QueueS.AddURL
    rw [h1]
    simp [h2]

/-! ## `Queue.Run` as a transition system

`Run` (queue.go lines 108–150) spawns `Threads` worker goroutines and one
dispatcher goroutine and waits for all of them.  The model below is the
instance `Threads = 1` with the in-memory backend, an initial backlog and
an executor (`r.Do()`) that never enqueues — the scenario of the
termination law.  State components:

* `backlog` — the storage backlog, abstracted to the list of queued items
  (justified by the `ReprQ` lemmas above: with a single consumer and no
  concurrent producer, `IsEmpty` is `backlog = []` and `GetRequest` pops
  the head); each item is the `Bool` saying whether
  `Collector.UnmarshalRequest` (an external collaborator) succeeds on it;
* `count` — `activeThreadCount`;
* `closed` — whether `q.finish()` has closed the `requestsOut` channel;
* `dpc` — the dispatcher's position: at the top of its loop (`top`),
  between observing `IsEmpty()` and reading `activeThreadCount` (`check`,
  the backlog cannot change in between since only the dispatcher pops and
  nobody enqueues), blocked on the channel send (`send`), or exited
  (`exit`);
* `wpc` — the worker's position: before its increment (`start`), blocked
  receiving on the channel (`recv`), executing an item (`exec`), or
  exited after its decrement (`wdone`);
* `executed` — how many items `r.Do()` has run.

The dispatcher's defensive break on a failed/`nil` pop (line 134) needs
no transition: with the only consumer popping after observing a non-empty
backlog, the in-memory `GetRequest` always yields an item. -/

/-- Dispatcher program counter. -/
inductive DPC where
  | top
  | check
  | send
  | exit
deriving DecidableEq, Repr

/-- Worker program counter. -/
inductive WPC where
  | start
  | recv
  | exec
  | wdone
deriving DecidableEq, Repr

/-- A global state of `Run`. -/
structure RunState where
  backlog : List Bool
  count : Int
  closed : Bool
  dpc : DPC
  wpc : WPC
  executed : Nat
deriving DecidableEq, Repr

/-- The interleaving semantics of `Run` with one worker. -/
inductive RunStep : RunState → RunState → Prop where
  /-- Dispatcher observes `q.IsEmpty()` true (line 126). -/
  | observeEmpty (s : RunState) : s.dpc = DPC.top → s.backlog = [] →
      RunStep s { s with dpc := DPC.check }
  /-- Dispatcher reads `activeThreadCount == 0`, calls `q.finish()` —
  closing the channel — and breaks (lines 127–130). -/
  | closeChan (s : RunState) : s.dpc = DPC.check → s.count = 0 →
      RunStep s { s with closed := true, dpc := DPC.exit }
  /-- Dispatcher reads `activeThreadCount != 0` and spins (line 131). -/
  | spin (s : RunState) : s.dpc = DPC.check → s.count ≠ 0 →
      RunStep s { s with dpc := DPC.top }
  /-- Dispatcher pops the head item, copies it, and decoding succeeds
  (lines 133–140); it proceeds to the blocking channel send (line 144). -/
  | popOk (s : RunState) (rest : List Bool) : s.dpc = DPC.top →
      s.backlog = true :: rest →
      RunStep s { s with backlog := rest, dpc := DPC.send }
  /-- Dispatcher pops the head item but decoding fails; the item is
  discarded and the loop continues (lines 140–142). -/
  | popBad (s : RunState) (rest : List Bool) : s.dpc = DPC.top →
      s.backlog = false :: rest →
      RunStep s { s with backlog := rest, dpc := DPC.top }
  /-- Rendezvous on the unbuffered channel: the blocked send pairs with
  the worker's receive (lines 115 and 144). -/
  | handoff (s : RunState) : s.dpc = DPC.send → s.wpc = WPC.recv →
      RunStep s { s with dpc := DPC.top, wpc := WPC.exec }
  /-- The worker increments `activeThreadCount` on start (line 114) and
  blocks on the channel receive. -/
  | workerStart (s : RunState) : s.wpc = WPC.start →
      RunStep s { s with count := s.count + 1, wpc := WPC.recv }
  /-- The worker finishes `r.Do()` (line 116) and goes back to receive;
  the executor enqueues nothing. -/
  | workerExec (s : RunState) : s.wpc = WPC.exec →
      RunStep s { s with executed := s.executed + 1, wpc := WPC.recv }
  /-- The channel is closed and drained, so the worker's range loop ends:
  it decrements `activeThreadCount` and exits (line 118). -/
  | workerExit (s : RunState) : s.wpc = WPC.recv → s.closed = true →
      RunStep s { s with count := s.count - 1, wpc := WPC.wdone }

/-- The state in which `Run` starts: the given backlog, counter 0, open
channel, both goroutines at their entry points. -/
def runInit (items : List Bool) : RunState :=
  { backlog := items, count := 0, closed := false
    dpc := DPC.top, wpc := WPC.start, executed := 0 }

/-- Predicate: `Run` returns (the `wg.Wait()` at line 148 unblocks): the dispatcher
and the worker have both exited. -/
def Terminated (s : RunState) : Prop := s.dpc = DPC.exit ∧ s.wpc = WPC.wdone

/-- The inductive invariant showing `Run` cannot terminate: the channel is
never closed, so the worker never exits; once the backlog is empty the
worker addressee of the last hand-off keeps `count = 1`, so the dispatcher
can never observe `activeThreadCount == 0` and never closes the channel. -/
structure RunInv (s : RunState) : Prop where
  not_closed : s.closed = false
  worker_alive : s.wpc ≠ WPC.wdone
  disp_alive : s.dpc ≠ DPC.exit
  count_start : s.wpc = WPC.start → s.count = 0
  count_one : s.wpc = WPC.recv ∨ s.wpc = WPC.exec → s.count = 1
  check_empty : s.dpc = DPC.check → s.backlog = []
  empty_worker : s.dpc = DPC.top ∨ s.dpc = DPC.check → s.backlog = [] →
    s.wpc = WPC.recv ∨ s.wpc = WPC.exec
  all_ok : ∀ b ∈ s.backlog, b = true

theorem RunInv_step {s t : RunState} (h : RunInv s) (st : RunStep s t) :
    RunInv t := by
  obtain ⟨hcl, hwd, hde, hstart, hone, hchk, hobs, hall⟩ := h
  cases st with
  | observeEmpty hd hb =>
      exact ⟨hcl, hwd, fun h => DPC.noConfusion h, hstart, hone,
        fun _ => hb, fun _ hbe => hobs (Or.inl hd) hb, hall⟩
  | closeChan hd hc =>
      exact absurd hc (by rw [hone (hobs (Or.inr hd) (hchk hd))]; decide)
  | spin hd hc =>
      exact ⟨hcl, hwd, fun h => DPC.noConfusion h, hstart, hone,
        fun h => DPC.noConfusion h, fun _ hbe => hobs (Or.inr hd) hbe, hall⟩
  | popOk rest hd hb =>
      refine ⟨hcl, hwd, fun h => DPC.noConfusion h, hstart, hone,
        fun h => DPC.noConfusion h,
        fun h _ => h.elim (fun h' => DPC.noConfusion h') (fun h' => DPC.noConfusion h'),
        fun b hbm => hall b ?_⟩
      rw [hb]
      exact List.mem_cons_of_mem _ hbm
  | popBad rest hd hb =>
      have := hall false (by rw [hb]; exact List.mem_cons_self _ _)
      exact Bool.noConfusion this
  | handoff hd hw =>
      exact ⟨hcl, fun h => WPC.noConfusion h, fun h => DPC.noConfusion h,
        fun h => WPC.noConfusion h, fun _ => hone (Or.inl hw),
        fun h => DPC.noConfusion h, fun _ _ => Or.inr rfl, hall⟩
  | workerStart hw =>
      refine ⟨hcl, fun h => WPC.noConfusion h, hde,
        fun h => WPC.noConfusion h, fun _ => ?_, hchk,
        fun _ _ => Or.inl rfl, hall⟩
      simp [hstart hw]
  | workerExec hw =>
      exact ⟨hcl, fun h => WPC.noConfusion h, hde,
        fun h => WPC.noConfusion h, fun _ => hone (Or.inr hw), hchk,
        fun _ _ => Or.inl rfl, hall⟩
  | workerExit hw hc =>
      rw [hcl] at hc
      exact Bool.noConfusion hc

theorem RunInv_reach {s0 s : RunState} (h0 : RunInv s0)
    (h : Relation.ReflTransGen RunStep s0 s) : RunInv s := by
  induction h with
  | refl => exact h0
  | tail _ st ih => exact RunInv_step ih st

theorem RunInv_init : RunInv (runInit [true]) :=
  ⟨rfl, by decide, by decide, fun _ => rfl, by decide, by decide,
   by decide, by decide⟩

/-- C3 (refuted by the code): from a backlog of one well-formed item and
one worker, no execution of `Run` ever closes the hand-off channel or
reaches the state in which `Run` returns — the dispatcher needs
`activeThreadCount == 0` to finish, but the worker only decrements the
counter after the channel closes, so `Run` spins forever instead of
terminating. -/
theorem c3_run_never_returns (s : RunState)
    (h : Relation.ReflTransGen RunStep (runInit [true]) s) :
    s.closed = false ∧ ¬Terminated s := by
  have hinv := RunInv_reach RunInv_init h
  exact ⟨hinv.not_closed, fun ht => hinv.disp_alive ht.1⟩

/-- C3 witness: the initial state itself. -/
theorem c3_run_never_returns_witness :
    (runInit [true]).closed = false ∧ ¬Terminated (runInit [true]) :=
  c3_run_never_returns (runInit [true]) Relation.ReflTransGen.refl
